import Mathlib

/-!
Verification of the face detection / recognition pipeline core
(`src/main.py`, `src/recognition/face_matcher.py`,
`src/recognition/database_manager.py`).

Real-valued quantities (bounding-box coordinates, confidences, feature
vectors) are modelled over `ℚ`; Python dicts (which preserve insertion
order) are modelled as association lists; `collections.deque(maxlen=n)`
is modelled as a list that drops its oldest element on overflow.
-/

set_option autoImplicit false

namespace FaceRec

/-- A bounding box `(x, y, w, h)`, as used throughout `main.py`. -/
abbrev BBox := Rat × Rat × Rat × Rat

/-- A tuple emitted by `FaceTracker.update`:
`(bbox, name, confidence, is_known)`. -/
abbrev TrackResult := BBox × String × Rat × Bool

/-- One element of the `detections` argument of `FaceTracker.update`:
`(bbox, name, confidence, is_known)`. -/
structure Detection where
  bbox : BBox
  name : String
  confidence : Rat
  isKnown : Bool
deriving DecidableEq

/-! ### Association-list helpers (Python `dict` semantics)

Python dicts preserve insertion order; key lookup finds the unique
binding, assignment to an existing key updates it in place, assignment
to a fresh key appends it at the end. -/

/-- Look up the first binding of `k` (Python `d[k]` / `d.get(k)`). -/
def alistFind {β : Type} : List (String × β) → String → Option β
  | [], _ => none
  | p :: ps, k => if p.1 = k then some p.2 else alistFind ps k

/-- Key-membership test (Python `k in d`). -/
def alistHas {β : Type} (l : List (String × β)) (k : String) : Bool :=
  l.any (fun p => p.1 = k)

/-- Update the value at key `k` by `f`, leaving other bindings alone. -/
def alistMapAt {β : Type} (l : List (String × β)) (k : String) (f : β → β) :
    List (String × β) :=
  l.map (fun p => if p.1 = k then (p.1, f p.2) else p)

/-- Python `d[k] = v`: update in place if present, else append. -/
def alistSet {β : Type} (l : List (String × β)) (k : String) (v : β) :
    List (String × β) :=
  if alistHas l k then alistMapAt l k (fun _ => v) else l ++ [(k, v)]

/-! ### `FaceTracker._calculate_iou` (`main.py` lines 26-41) -/

/-- Shallow embedding of `FaceTracker._calculate_iou`. -/
def calculateIou (bbox1 bbox2 : BBox) : Rat :=
  let x1 := bbox1.1; let y1 := bbox1.2.1; let w1 := bbox1.2.2.1; let h1 := bbox1.2.2.2
  let x2 := bbox2.1; let y2 := bbox2.2.1; let w2 := bbox2.2.2.1; let h2 := bbox2.2.2.2
  let xLeft := max x1 x2
  let yTop := max y1 y2
  let xRight := min (x1 + w1) (x2 + w2)
  let yBottom := min (y1 + h1) (y2 + h2)
  if xRight < xLeft ∨ yBottom < yTop then 0
  else
    let inter := (xRight - xLeft) * (yBottom - yTop)
    let uni := w1 * h1 + w2 * h2 - inter
    if uni > 0 then inter / uni else 0

/-- The (signed) intersection term `(x_right - x_left) * (y_bottom - y_top)`
of `_calculate_iou`, before the overlap test. -/
def interRaw (bbox1 bbox2 : BBox) : Rat :=
  (min (bbox1.1 + bbox1.2.2.1) (bbox2.1 + bbox2.2.2.1) - max bbox1.1 bbox2.1) *
    (min (bbox1.2.1 + bbox1.2.2.2) (bbox2.2.1 + bbox2.2.2.2) - max bbox1.2.1 bbox2.2.1)

/-- The union term `w1*h1 + w2*h2 - intersection` of `_calculate_iou`. -/
def unionRaw (bbox1 bbox2 : BBox) : Rat :=
  bbox1.2.2.1 * bbox1.2.2.2 + bbox2.2.2.1 * bbox2.2.2.2 - interRaw bbox1 bbox2

/-- Two axis-aligned boxes do not overlap: their intersection rectangle
is empty or degenerate. -/
def boxesDisjoint (bbox1 bbox2 : BBox) : Prop :=
  min (bbox1.1 + bbox1.2.2.1) (bbox2.1 + bbox2.2.2.1) ≤ max bbox1.1 bbox2.1 ∨
    min (bbox1.2.1 + bbox1.2.2.2) (bbox2.2.1 + bbox2.2.2.2) ≤ max bbox1.2.1 bbox2.2.1

/-! ### `FaceMatcher` (`face_matcher.py`) -/

/-- Shallow embedding of `FaceMatcher._calculate_distance`: symmetric
chi-square distance with `epsilon = 1e-10`. -/
def chiSquareDistance (encoding1 encoding2 : List Rat) : Rat :=
  (1 / 2) *
    ((encoding1.zip encoding2).map
      (fun p => (p.1 - p.2) ^ 2 / (p.1 + p.2 + 1 / 10 ^ 10))).sum

/-- Scanning loop of `np.argmin`: `i` is the index of the next element,
`bi`/`b` the index and value of the best element seen so far; a strict
improvement is required, so the first occurrence of the minimum wins. -/
def argminAux : List Rat → Nat → Nat → Rat → Nat
  | [], _, bi, _ => bi
  | x :: xs, i, bi, b =>
      if x < b then argminAux xs (i + 1) i x else argminAux xs (i + 1) bi b

/-- `np.argmin`: index of the first occurrence of the minimum (0 on `[]`). -/
def argminIdx : List Rat → Nat
  | [] => 0
  | x :: xs => argminAux xs 1 0 x

/-- Shallow embedding of `FaceMatcher._calculate_distances`: distance of
`encoding` to every gallery sample, in gallery order.  The gallery is the
flattened `(encoding, name)` view produced by
`FaceDatabase.get_all_encodings`. -/
def calculateDistances (encoding : List Rat)
    (gallery : List (List Rat × String)) : List Rat :=
  gallery.map (fun s => chiSquareDistance encoding s.1)

/-- Shallow embedding of `FaceMatcher.match_face`. -/
def matchFace (tolerance : Rat) (gallery : List (List Rat × String))
    (encoding : List Rat) : Option String × Rat :=
  if gallery = [] then (none, 0)
  else
    let dists := calculateDistances encoding gallery
    let i := argminIdx dists
    let best := dists.getD i 0
    if best ≤ tolerance then
      (some ((gallery.getD i ([], "")).2), max 0 (min 1 (1 - best / 2)))
    else (none, 0)

/-! ### `FaceTracker` (`main.py` lines 18-100) -/

/-- One entry of `FaceTracker.tracks`: `{'bbox': ..., 'name_votes': ...,
'age': ...}`.  `name_votes` maps a name to its bounded vote queue
(`deque(maxlen=history_size)`), oldest vote first. -/
structure Track where
  bbox : BBox
  nameVotes : List (String × List Rat)
  age : Nat
deriving DecidableEq

/-- The `FaceTracker` object state and its configuration fields. -/
structure FaceTracker where
  tracks : List (Nat × Track)
  nextId : Nat
  historySize : Nat
  iouThreshold : Rat
  maxAge : Nat
deriving DecidableEq

/-- `FaceTracker.__init__(history_size, iou_threshold)`: empty track
table, `next_id = 0`, `max_age = 10`. -/
def FaceTracker.mk0 (historySize : Nat) (iouThreshold : Rat) : FaceTracker :=
  ⟨[], 0, historySize, iouThreshold, 10⟩

/-- `deque(maxlen := maxlen).append`: push `c` on the right, dropping
from the left when the queue is full. -/
def pushVote (maxlen : Nat) (q : List Rat) (c : Rat) : List Rat :=
  (q ++ [c]).drop (q.length + 1 - maxlen)

/-- `main.py` lines 72-75: push `c` onto `name`'s vote queue, creating a
fresh `deque(maxlen := maxlen)` for `name` first when absent. -/
def addVote (maxlen : Nat) (votes : List (String × List Rat)) (name : String)
    (c : Rat) : List (String × List Rat) :=
  if alistHas votes name then alistMapAt votes name (fun q => pushVote maxlen q c)
  else votes ++ [(name, pushVote maxlen [] c)]

/-- `np.mean` of a vote queue. -/
def mean (l : List Rat) : Rat := l.sum / l.length

/-- The sort key `(len(votes), np.mean(votes))` of `main.py` line 79. -/
def voteKey (q : List Rat) : Nat × Rat := (q.length, mean q)

/-- Strict lexicographic order on vote keys. -/
def keyLt (a b : Nat × Rat) : Prop := a.1 < b.1 ∨ (a.1 = b.1 ∧ a.2 < b.2)

instance (a b : Nat × Rat) : Decidable (keyLt a b) := by
  unfold keyLt; infer_instance

/-- Non-strict lexicographic order on vote keys. -/
def keyLe (a b : Nat × Rat) : Prop := keyLt a b ∨ a = b

/-- One comparison step of Python's `max`: the running best is replaced
only on a strict key increase, so the first maximal item wins. -/
def voteMaxStep (best nv : String × List Rat) : String × List Rat :=
  if keyLt (voteKey best.2) (voteKey nv.2) then nv else best

/-- `max(track['name_votes'].items(), key=lambda x: (len(x[1]), np.mean(x[1])))`:
scan the items in dict order starting from the first;  `none` models the
empty dict (guarded by `if track['name_votes']:` in the source). -/
def pickBest (votes : List (String × List Rat)) : Option (String × List Rat) :=
  match votes with
  | [] => none
  | v :: vs => some (vs.foldl voteMaxStep v)

/-- `main.py` lines 77-84: stabilized name and confidence of a track with
vote table `votes`, falling back to `("Unknown", fallbackConf)` (the
current detection's confidence) when the table is empty. -/
def resolveLabel (votes : List (String × List Rat)) (fallbackConf : Rat) :
    String × Rat :=
  match pickBest votes with
  | some nq => (nq.1, mean nq.2)
  | none => ("Unknown", fallbackConf)

/-- Loop body of `main.py` lines 58-64: skip claimed tracks, keep the
running best `(best_iou, best_track)` unless strictly improved above the
threshold. -/
def findStep (thr : Rat) (bbox : BBox) (matched : List Nat)
    (acc : Rat × Option (Nat × Track)) (it : Nat × Track) :
    Rat × Option (Nat × Track) :=
  if it.1 ∈ matched then acc
  else
    let iou := calculateIou bbox it.2.bbox
    if iou > acc.1 ∧ iou > thr then (iou, some it) else acc

/-- `main.py` lines 54-64: scan the track table for the unclaimed track of
best IoU with `bbox`, starting from `best_iou = 0`, `best_track_id = None`. -/
def findBestTrack (thr : Rat) (bbox : BBox) (matched : List Nat)
    (tracks : List (Nat × Track)) : Option (Nat × Track) :=
  (tracks.foldl (findStep thr bbox matched)
    ((0 : Rat), (none : Option (Nat × Track)))).2

/-- `main.py` lines 44-48: age every track by one and delete those whose
new age exceeds `maxAge`. -/
def ageTracks (maxAge : Nat) (tracks : List (Nat × Track)) : List (Nat × Track) :=
  (tracks.map (fun it => (it.1, { it.2 with age := it.2.age + 1 }))).filter
    (fun it => decide (it.2.age ≤ maxAge))

/-- Loop state of the `for bbox, name, confidence, is_known in detections`
loop of `FaceTracker.update`. -/
structure UpdateAcc where
  tracks : List (Nat × Track)
  nextId : Nat
  matched : List Nat
  results : List TrackResult
deriving DecidableEq

/-- `main.py` lines 53-98: process one detection. -/
def stepDetection (historySize : Nat) (thr : Rat) (acc : UpdateAcc)
    (d : Detection) : UpdateAcc :=
  match findBestTrack thr d.bbox acc.matched acc.tracks with
  | some (tid, tr) =>
      let newVotes :=
        if d.name ≠ "" ∧ d.isKnown then addVote historySize tr.nameVotes d.name d.confidence
        else tr.nameVotes
      let newTrack : Track := ⟨d.bbox, newVotes, 0⟩
      let sl := resolveLabel newVotes d.confidence
      { tracks := acc.tracks.map (fun it => if it.1 = tid then (tid, newTrack) else it),
        nextId := acc.nextId,
        matched := tid :: acc.matched,
        results := acc.results ++ [(d.bbox, sl.1, sl.2, decide (sl.1 ≠ "Unknown"))] }
  | none =>
      let newTrack : Track :=
        ⟨d.bbox,
          if d.name ≠ "" ∧ d.isKnown then [(d.name, pushVote historySize [] d.confidence)]
          else [],
          0⟩
      { tracks := acc.tracks ++ [(acc.nextId, newTrack)],
        nextId := acc.nextId + 1,
        matched := acc.nextId :: acc.matched,
        results := acc.results ++ [(d.bbox, d.name, d.confidence, d.isKnown)] }

/-- `FaceTracker.update`, exposing the whole final loop state. -/
def FaceTracker.updateFull (ft : FaceTracker) (dets : List Detection) : UpdateAcc :=
  dets.foldl (stepDetection ft.historySize ft.iouThreshold)
    { tracks := ageTracks ft.maxAge ft.tracks, nextId := ft.nextId,
      matched := [], results := [] }

/-- Shallow embedding of `FaceTracker.update`: the mutated tracker and the
returned `results` list. -/
def FaceTracker.update (ft : FaceTracker) (dets : List Detection) :
    FaceTracker × List TrackResult :=
  let acc := ft.updateFull dets
  ({ ft with tracks := acc.tracks, nextId := acc.nextId }, acc.results)

/-- Well-formedness of a tracker state, maintained by the code: track ids
are pairwise distinct and below `next_id` (Python dict keys are unique and
ids are handed out from the monotone counter `next_id`). -/
def FaceTracker.WF (ft : FaceTracker) : Prop :=
  (∀ p ∈ ft.tracks, p.1 < ft.nextId) ∧ (ft.tracks.map Prod.fst).Nodup

instance (ft : FaceTracker) : Decidable ft.WF := by
  unfold FaceTracker.WF; infer_instance

/-! ### `FaceDatabase` (`database_manager.py`) -/

/-- One value of the database dict:
`{'encodings': [...], 'metadata': {...}}`. -/
structure PersonData where
  encodings : List (List Rat)
  metadata : List (String × String)
deriving DecidableEq

/-- `FaceDatabase.database`: dict from name to `PersonData`. -/
abbrev Database := List (String × PersonData)

/-- Shallow embedding of `FaceDatabase.add_person` (lines 77-95): create
the entry (with `added_date := now`) when `name` is absent, then append
`encoding` and stamp `last_updated := now`.  The second component is the
returned value (`True`, unconditionally). -/
def addPerson (db : Database) (name : String) (encoding : List Rat)
    (metadata : Option (List (String × String))) (now : String) :
    Database × Bool :=
  let base :=
    if alistHas db name then db
    else db ++ [(name, ⟨[], alistSet (metadata.getD []) "added_date" now⟩)]
  (alistMapAt base name
    (fun pd => ⟨pd.encodings ++ [encoding], alistSet pd.metadata "last_updated" now⟩),
   true)

/-- The `encodings` list stored under `name` (empty when absent). -/
def getEncodings (db : Database) (name : String) : List (List Rat) :=
  match alistFind db name with
  | some pd => pd.encodings
  | none => []

/-- What `_load_database` finds on disk: no file, an unreadable/corrupt
file (any `pickle.load` exception), or a readable database. -/
inductive GalleryFile where
  | absent
  | corrupt
  | readable (db : Database)
deriving DecidableEq

/-- Shallow embedding of `FaceDatabase._load_database` (lines 19-28).
The Boolean records whether the warning was printed; the `except` branch
catches every exception, so the function is total. -/
def loadDatabase : GalleryFile → Database × Bool
  | .absent => ([], false)
  | .corrupt => ([], true)
  | .readable db => (db, false)

/-! ### File-system effects of `FaceDatabase.save_database` (lines 30-46) -/

/-- File-system operations relevant to write atomicity. -/
inductive FsOp where
  | write (path : String)
  | rename (src dst : String)
deriving DecidableEq

/-- The file-system operations performed by a successful
`FaceDatabase.save_database` call: `open(self.db_path, 'wb')` +
`pickle.dump`, then `_save_metadata` writing the `.json` sidecar, then
(when backups are enabled) `_create_backup` writing the timestamped
backup file.  No temporary file and no rename are involved. -/
def saveDatabaseOps (dbPath metaPath backupPath : String)
    (backupEnabled : Bool) : List FsOp :=
  [FsOp.write dbPath, FsOp.write metaPath] ++
    (if backupEnabled then [FsOp.write backupPath] else [])

/-- Modelled from the spec: "write to a temporary location and
rename/replace, never mutate the live file in place".  The durable file
is never written directly, and it is produced by renaming a temporary
file that was written during the save. -/
def atomicReplaceSave (ops : List FsOp) (dbPath : String) : Prop :=
  (∀ op ∈ ops, op ≠ FsOp.write dbPath) ∧
    ∃ tmp, tmp ≠ dbPath ∧ FsOp.write tmp ∈ ops ∧ FsOp.rename tmp dbPath ∈ ops

/-! ## Theorems -/

/-- C6: for axis-aligned boxes `(x, y, w, h)`, `_calculate_iou` satisfies:
`IoU(b, b) = 1` for every box of positive area; `IoU(a, b) = IoU(b, a)`;
`IoU(a, b) = 0` whenever the boxes do not overlap; and `IoU(a, b) = 0`
whenever the union area is zero. -/
theorem iou_properties :
    (∀ x y w h : Rat, 0 < w → 0 < h → calculateIou (x, y, w, h) (x, y, w, h) = 1) ∧
    (∀ b1 b2 : BBox, calculateIou b1 b2 = calculateIou b2 b1) ∧
    (∀ b1 b2 : BBox, boxesDisjoint b1 b2 → calculateIou b1 b2 = 0) ∧
    (∀ b1 b2 : BBox, unionRaw b1 b2 = 0 → calculateIou b1 b2 = 0) := by
  refine ⟨?_, ?_, ?_, ?_⟩
  · intro x y w h hw hh
    simp only [calculateIou, max_self, min_self]
    rw [if_neg (by push_neg; constructor <;> linarith), if_pos (by nlinarith)]
    have h1 : (x + w - x) * (y + h - y) = w * h := by ring
    rw [h1]
    have h2 : w * h + w * h - w * h = w * h := by ring
    rw [h2]
    exact div_self (ne_of_gt (mul_pos hw hh))
  · intro b1 b2
    obtain ⟨x1, y1, w1, h1⟩ := b1
    obtain ⟨x2, y2, w2, h2⟩ := b2
    simp only [calculateIou]
    rw [max_comm x2 x1, max_comm y2 y1, min_comm (x2 + w2) (x1 + w1),
      min_comm (y2 + h2) (y1 + h1), add_comm (w2 * h2) (w1 * h1)]
  · intro b1 b2 hd
    obtain ⟨x1, y1, w1, h1⟩ := b1
    obtain ⟨x2, y2, w2, h2⟩ := b2
    simp only [calculateIou]
    split
    · rfl
    · rename_i hc
      push_neg at hc
      have hz : (min (x1 + w1) (x2 + w2) - max x1 x2) *
          (min (y1 + h1) (y2 + h2) - max y1 y2) = 0 := by
        rcases hd with hx | hy
        · have : min (x1 + w1) (x2 + w2) - max x1 x2 = 0 := by
            have := hc.1
            linarith
          rw [this, zero_mul]
        · have : min (y1 + h1) (y2 + h2) - max y1 y2 = 0 := by
            have := hc.2
            linarith
          rw [this, mul_zero]
      rw [hz]
      split <;> simp
  · intro b1 b2 hu
    obtain ⟨x1, y1, w1, h1⟩ := b1
    obtain ⟨x2, y2, w2, h2⟩ := b2
    simp only [unionRaw, interRaw] at hu
    simp only [calculateIou]
    split
    · rfl
    · rw [hu, if_neg (lt_irrefl 0)]

/-- C6 witness: concrete instances of the conditional parts. -/
theorem iou_properties_witness :
    calculateIou (0, 0, 4, 3) (0, 0, 4, 3) = 1 ∧
      calculateIou (0, 0, 4, 3) (100, 100, 2, 2) = 0 :=
  ⟨iou_properties.1 0 0 4 3 (by norm_num) (by norm_num),
   iou_properties.2.2.1 (0, 0, 4, 3) (100, 100, 2, 2)
     (Or.inl (by norm_num [boxesDisjoint]))⟩

/-- An in-range `getD` is a member of the list. -/
lemma getD_mem_of_lt {l : List Rat} {k : Nat} (hk : k < l.length) :
    l.getD k 0 ∈ l := by
  rw [List.getD_eq_getElem l 0 hk]
  exact List.getElem_mem hk

/-- `argminAux xs i bi b` either keeps the running best `bi` (whose value
`b` is then a lower bound of `xs`) or returns `i + j` for a position `j`
in `xs` holding a strict improvement that is minimal in `xs`. -/
lemma argminAux_spec (xs : List Rat) : ∀ (i bi : Nat) (b : Rat),
    (argminAux xs i bi b = bi ∧ ∀ x ∈ xs, b ≤ x) ∨
    (∃ j, j < xs.length ∧ argminAux xs i bi b = i + j ∧ xs.getD j 0 < b ∧
      ∀ x ∈ xs, xs.getD j 0 ≤ x) := by
  induction xs with
  | nil => intro i bi b; exact Or.inl ⟨rfl, by simp⟩
  | cons y ys ih =>
    intro i bi b
    by_cases hyb : y < b
    · rcases ih (i + 1) i y with ⟨h1, h2⟩ | ⟨j, hj, heq, hlt, hmin⟩
      · refine Or.inr ⟨0, by simp, ?_, ?_, ?_⟩
        · simp only [argminAux, if_pos hyb]
          rw [h1]
          omega
        · simpa using hyb
        · intro x hx
          simp only [List.getD_cons_zero]
          rcases List.mem_cons.mp hx with rfl | hx
          · exact le_refl _
          · exact h2 x hx
      · refine Or.inr ⟨j + 1, by simpa using hj, ?_, ?_, ?_⟩
        · simp only [argminAux, if_pos hyb]
          rw [heq]
          omega
        · simpa [List.getD_cons_succ] using lt_trans hlt hyb
        · intro x hx
          simp only [List.getD_cons_succ]
          rcases List.mem_cons.mp hx with rfl | hx
          · exact le_of_lt hlt
          · exact hmin x hx
    · rcases ih (i + 1) bi b with ⟨h1, h2⟩ | ⟨j, hj, heq, hlt, hmin⟩
      · refine Or.inl ⟨?_, ?_⟩
        · simp only [argminAux, if_neg hyb]
          exact h1
        · intro x hx
          rcases List.mem_cons.mp hx with rfl | hx
          · exact not_lt.mp hyb
          · exact h2 x hx
      · refine Or.inr ⟨j + 1, by simpa using hj, ?_, ?_, ?_⟩
        · simp only [argminAux, if_neg hyb]
          rw [heq]
          omega
        · simpa [List.getD_cons_succ] using hlt
        · intro x hx
          simp only [List.getD_cons_succ]
          rcases List.mem_cons.mp hx with rfl | hx
          · exact le_of_lt (lt_of_lt_of_le hlt (not_lt.mp hyb))
          · exact hmin x hx

/-- `np.argmin`: on a non-empty list, the returned index is in range and
holds a minimal value. -/
lemma argmin_spec (l : List Rat) (hl : l ≠ []) :
    argminIdx l < l.length ∧
      ∀ j, j < l.length → l.getD (argminIdx l) 0 ≤ l.getD j 0 := by
  cases l with
  | nil => exact absurd rfl hl
  | cons x xs =>
    rcases argminAux_spec xs 1 0 x with ⟨h1, h2⟩ | ⟨j, hj, heq, hlt, hmin⟩
    · constructor
      · simp only [argminIdx]
        rw [h1]
        simp
      · intro k hk
        simp only [argminIdx]
        rw [h1]
        simp only [List.getD_cons_zero]
        cases k with
        | zero => simp
        | succ k =>
            simp only [List.getD_cons_succ]
            exact h2 _ (getD_mem_of_lt (by simpa using hk))
    · constructor
      · simp only [argminIdx]
        rw [heq]
        simp only [List.length_cons]
        omega
      · intro k hk
        simp only [argminIdx]
        rw [heq]
        have h1j : (x :: xs).getD (1 + j) 0 = xs.getD j 0 := by
          rw [Nat.add_comm]
          simp [List.getD_cons_succ]
        rw [h1j]
        cases k with
        | zero => simpa using le_of_lt hlt
        | succ k =>
            simp only [List.getD_cons_succ]
            exact hmin _ (getD_mem_of_lt (by simpa using hk))

/-- The chi-square distance of a vector to itself is zero (every summand
has numerator `(x - x)^2 = 0`). -/
lemma chiSquareDistance_self (u : List Rat) : chiSquareDistance u u = 0 := by
  induction u with
  | nil => simp [chiSquareDistance]
  | cons a u ih =>
    simp only [chiSquareDistance, List.zip_cons_cons, List.map_cons, List.sum_cons,
      sub_self] at ih ⊢
    rw [show ((0 : Rat) ^ 2 / (a + a + 1 / 10 ^ 10)) = 0 by norm_num, zero_add]
    exact ih

/-- With non-negative entries every summand of the chi-square distance is
non-negative: the denominator is at least `epsilon > 0`. -/
lemma chiSquareDistance_nonneg (u v : List Rat) (hu : ∀ x ∈ u, 0 ≤ x)
    (hv : ∀ x ∈ v, 0 ≤ x) : 0 ≤ chiSquareDistance u v := by
  apply mul_nonneg (by norm_num)
  apply List.sum_nonneg
  intro t ht
  obtain ⟨p, hp, rfl⟩ := List.mem_map.mp ht
  have h1 : 0 ≤ p.1 := hu _ (List.of_mem_zip hp).1
  have h2 : 0 ≤ p.2 := hv _ (List.of_mem_zip hp).2
  apply div_nonneg (sq_nonneg _)
  positivity

/-- Minimum-distance behavior of `match_face` on a non-empty gallery:
the result is determined by the first minimal element of the distance
list, per the tolerance test. -/
lemma matchFace_argmin (tolerance : Rat) (gallery : List (List Rat × String))
    (encoding : List Rat) (hne : gallery ≠ []) :
    argminIdx (calculateDistances encoding gallery) < gallery.length ∧
    (∀ j, j < gallery.length →
      (calculateDistances encoding gallery).getD
          (argminIdx (calculateDistances encoding gallery)) 0 ≤
        (calculateDistances encoding gallery).getD j 0) ∧
    ((calculateDistances encoding gallery).getD
        (argminIdx (calculateDistances encoding gallery)) 0 ≤ tolerance →
      matchFace tolerance gallery encoding =
        (some ((gallery.getD (argminIdx (calculateDistances encoding gallery))
            ([], "")).2),
          max 0 (min 1 (1 - (calculateDistances encoding gallery).getD
            (argminIdx (calculateDistances encoding gallery)) 0 / 2)))) ∧
    (tolerance < (calculateDistances encoding gallery).getD
        (argminIdx (calculateDistances encoding gallery)) 0 →
      matchFace tolerance gallery encoding = (none, 0)) := by
  have hmapne : calculateDistances encoding gallery ≠ [] := by
    simpa [calculateDistances] using hne
  have hlen : (calculateDistances encoding gallery).length = gallery.length := by
    simp [calculateDistances]
  obtain ⟨h1, h2⟩ := argmin_spec _ hmapne
  refine ⟨by omega, fun j hj => h2 j (by omega), ?_, ?_⟩
  · intro hle
    simp only [matchFace, if_neg hne]
    rw [if_pos hle]
  · intro hlt
    simp only [matchFace, if_neg hne]
    rw [if_neg (not_le.mpr hlt)]

/-- When the query vector is itself a gallery sample and all entries are
non-negative, the minimal distance is `0` and the match has confidence 1. -/
lemma matchFace_self_member (tolerance : Rat)
    (gallery : List (List Rat × String)) (encoding : List Rat) (name : String)
    (hmem : (encoding, name) ∈ gallery)
    (hpos : ∀ s ∈ gallery, ∀ x ∈ s.1, 0 ≤ x) (htol : 0 ≤ tolerance) :
    (calculateDistances encoding gallery).getD
        (argminIdx (calculateDistances encoding gallery)) 0 = 0 ∧
    ∃ nm, matchFace tolerance gallery encoding = (some nm, 1) := by
  have hne : gallery ≠ [] := List.ne_nil_of_mem hmem
  have he : ∀ x ∈ encoding, 0 ≤ x := by
    intro x hx
    exact hpos (encoding, name) hmem x hx
  obtain ⟨h1, h2, h3, _⟩ := matchFace_argmin tolerance gallery encoding hne
  have hlen : (calculateDistances encoding gallery).length = gallery.length := by
    simp [calculateDistances]
  obtain ⟨k, hk, hkeq⟩ := List.mem_iff_getElem.mp hmem
  have hdk : (calculateDistances encoding gallery).getD k 0 = 0 := by
    rw [List.getD_eq_getElem _ 0 (by omega)]
    simp only [calculateDistances, List.getElem_map]
    rw [show gallery[k].1 = encoding by rw [hkeq]]
    exact chiSquareDistance_self encoding
  have hup := h2 k hk
  rw [hdk] at hup
  have hia : argminIdx (calculateDistances encoding gallery) <
      (calculateDistances encoding gallery).length := by omega
  have hdown : 0 ≤ (calculateDistances encoding gallery).getD
      (argminIdx (calculateDistances encoding gallery)) 0 := by
    rw [List.getD_eq_getElem _ 0 hia]
    have hmem2 : (calculateDistances encoding gallery)[argminIdx
        (calculateDistances encoding gallery)] ∈
        calculateDistances encoding gallery := List.getElem_mem hia
    simp only [calculateDistances, List.mem_map] at hmem2
    obtain ⟨s, hs, hseq⟩ := hmem2
    rw [show (calculateDistances encoding gallery)[argminIdx
        (calculateDistances encoding gallery)] =
        chiSquareDistance encoding s.1 from hseq.symm]
    exact chiSquareDistance_nonneg _ _ he (fun x hx => hpos _ hs x hx)
  have hzero : (calculateDistances encoding gallery).getD
      (argminIdx (calculateDistances encoding gallery)) 0 = 0 :=
    le_antisymm hup hdown
  have hfinal := h3 (by rw [hzero]; exact htol)
  rw [hzero] at hfinal
  refine ⟨hzero, (gallery.getD (argminIdx (calculateDistances encoding gallery))
    ([], "")).2, ?_⟩
  rw [hfinal]
  norm_num

/-- C2: for every query vector and non-empty gallery, `match_face` returns
the name at the first index of minimal chi-square distance `d` with
confidence `clamp(1 - d/2, 0, 1)` when `d ≤ tolerance`, and `(None, 0.0)`
when `d > tolerance`; and when the query vector (with non-negative
entries, like all gallery samples) is itself a gallery sample, the
minimal distance is 0 and the returned confidence is 1. -/
theorem match_face_min_distance :
    (∀ (tolerance : Rat) (gallery : List (List Rat × String))
        (encoding : List Rat), gallery ≠ [] →
      argminIdx (calculateDistances encoding gallery) < gallery.length ∧
      (∀ j, j < gallery.length →
        (calculateDistances encoding gallery).getD
            (argminIdx (calculateDistances encoding gallery)) 0 ≤
          (calculateDistances encoding gallery).getD j 0) ∧
      ((calculateDistances encoding gallery).getD
          (argminIdx (calculateDistances encoding gallery)) 0 ≤ tolerance →
        matchFace tolerance gallery encoding =
          (some ((gallery.getD (argminIdx (calculateDistances encoding gallery))
              ([], "")).2),
            max 0 (min 1 (1 - (calculateDistances encoding gallery).getD
              (argminIdx (calculateDistances encoding gallery)) 0 / 2)))) ∧
      (tolerance < (calculateDistances encoding gallery).getD
          (argminIdx (calculateDistances encoding gallery)) 0 →
        matchFace tolerance gallery encoding = (none, 0))) ∧
    (∀ (tolerance : Rat) (gallery : List (List Rat × String))
        (encoding : List Rat) (name : String), (encoding, name) ∈ gallery →
      (∀ s ∈ gallery, ∀ x ∈ s.1, 0 ≤ x) → 0 ≤ tolerance →
      (calculateDistances encoding gallery).getD
          (argminIdx (calculateDistances encoding gallery)) 0 = 0 ∧
      ∃ nm, matchFace tolerance gallery encoding = (some nm, 1)) :=
  ⟨matchFace_argmin, matchFace_self_member⟩

/-- C2 witness: a two-sample gallery containing the query vector itself;
the minimal distance is 0 and the match returns confidence 1. -/
theorem match_face_min_distance_witness :
    (calculateDistances [0, 1] [([1, 0], "alice"), ([0, 1], "bob")]).getD
        (argminIdx (calculateDistances [0, 1]
          [([1, 0], "alice"), ([0, 1], "bob")])) 0 = 0 ∧
    ∃ nm, matchFace (6 / 10) [([1, 0], "alice"), ([0, 1], "bob")] [0, 1] =
      (some nm, 1) :=
  match_face_min_distance.2 (6 / 10) [([1, 0], "alice"), ([0, 1], "bob")]
    [0, 1] "bob" (by simp) (by norm_num) (by norm_num)

/-- C5: `match_face` on an empty gallery returns `(None, 0.0)` for every
query vector and tolerance; it is a total function, so no error can be
raised. -/
theorem match_face_empty_gallery :
    ∀ (tolerance : Rat) (encoding : List Rat),
      matchFace tolerance [] encoding = (none, 0) :=
  fun _ _ => rfl

/-! ### Association-list lemmas (Python `dict` reasoning) -/

lemma alistFind_eq_none {β : Type} {l : List (String × β)} {k : String}
    (h : alistHas l k = false) : alistFind l k = none := by
  induction l with
  | nil => rfl
  | cons p ps ih =>
    simp only [alistHas, List.any_cons, Bool.or_eq_false_iff,
      decide_eq_false_iff_not] at h
    simp only [alistFind, if_neg h.1]
    exact ih h.2

lemma alistFind_of_has {β : Type} {l : List (String × β)} {k : String}
    (h : alistHas l k = true) : ∃ v, alistFind l k = some v := by
  induction l with
  | nil => simp [alistHas] at h
  | cons p ps ih =>
    by_cases hp : p.1 = k
    · exact ⟨p.2, by simp [alistFind, hp]⟩
    · simp only [alistHas, List.any_cons, Bool.or_eq_true, decide_eq_true_eq] at h
      rcases h with h | h
      · exact absurd h hp
      · obtain ⟨v, hv⟩ := ih h
        exact ⟨v, by simp only [alistFind, if_neg hp]; exact hv⟩

lemma alistMapAt_cons {β : Type} (p : String × β) (ps : List (String × β))
    (k : String) (f : β → β) :
    alistMapAt (p :: ps) k f =
      (if p.1 = k then (p.1, f p.2) else p) :: alistMapAt ps k f := by
  simp only [alistMapAt, List.map_cons]

lemma alistFind_mapAt_self {β : Type} (l : List (String × β)) (k : String)
    (f : β → β) : alistFind (alistMapAt l k f) k = (alistFind l k).map f := by
  induction l with
  | nil => rfl
  | cons p ps ih =>
    rw [alistMapAt_cons]
    by_cases hp : p.1 = k
    · rw [if_pos hp]
      simp [alistFind, hp]
    · rw [if_neg hp]
      simp only [alistFind, if_neg hp]
      exact ih

lemma alistFind_mapAt_ne {β : Type} (l : List (String × β)) (k k2 : String)
    (f : β → β) (hk : k2 ≠ k) :
    alistFind (alistMapAt l k f) k2 = alistFind l k2 := by
  induction l with
  | nil => rfl
  | cons p ps ih =>
    rw [alistMapAt_cons]
    by_cases hp : p.1 = k
    · rw [if_pos hp]
      have hp2 : ¬ p.1 = k2 := by rw [hp]; exact fun h => hk h.symm
      simp only [alistFind, if_neg hp2]
      exact ih
    · rw [if_neg hp]
      simp only [alistFind]
      split
      · rfl
      · exact ih

lemma alistFind_append_some {β : Type} {l1 : List (String × β)}
    (l2 : List (String × β)) {k : String} {v : β}
    (h : alistFind l1 k = some v) : alistFind (l1 ++ l2) k = some v := by
  induction l1 with
  | nil => exact absurd h (by simp [alistFind])
  | cons p ps ih =>
    simp only [alistFind, List.cons_append] at h ⊢
    split at h
    · rw [if_pos (by assumption)]
      exact h
    · rw [if_neg (by assumption)]
      exact ih h

lemma alistFind_append_none {β : Type} {l1 : List (String × β)}
    (l2 : List (String × β)) {k : String} (h : alistFind l1 k = none) :
    alistFind (l1 ++ l2) k = alistFind l2 k := by
  induction l1 with
  | nil => rfl
  | cons p ps ih =>
    simp only [alistFind, List.cons_append] at h ⊢
    split at h
    · exact absurd h (by simp)
    · rw [if_neg (by assumption)]
      exact ih h

lemma alistFind_set_self {β : Type} (l : List (String × β)) (k : String)
    (v : β) : alistFind (alistSet l k v) k = some v := by
  unfold alistSet
  by_cases h : alistHas l k
  · rw [if_pos h, alistFind_mapAt_self]
    obtain ⟨w, hw⟩ := alistFind_of_has h
    rw [hw]
    rfl
  · rw [if_neg h, alistFind_append_none _ (alistFind_eq_none (by simpa using h))]
    simp [alistFind]

/-- C8: `_load_database` is a total function (the `except` clause catches
every exception): a missing gallery file yields an empty database without
a warning, an unreadable/corrupt file yields an empty database with a
logged warning, and a readable file yields its contents. -/
theorem load_database_recovery :
    loadDatabase .absent = ([], false) ∧
    loadDatabase .corrupt = ([], true) ∧
    ∀ db, loadDatabase (.readable db) = (db, false) :=
  ⟨rfl, rfl, fun _ => rfl⟩

/-- C9: `add_person` always succeeds (returns `True`), appends the
encoding at the end of `name`'s sample list (creating the entry when
absent), refreshes `name`'s `last_updated` metadata, leaves every other
identity untouched, and never shrinks any identity's sample list. -/
theorem add_person_effect (db : Database) (name : String)
    (encoding : List Rat) (metadata : Option (List (String × String)))
    (now : String) (hname : name ≠ "") :
    (addPerson db name encoding metadata now).2 = true ∧
    getEncodings (addPerson db name encoding metadata now).1 name =
      getEncodings db name ++ [encoding] ∧
    (∃ pd, alistFind (addPerson db name encoding metadata now).1 name = some pd ∧
      alistFind pd.metadata "last_updated" = some now) ∧
    (∀ other, other ≠ name →
      alistFind (addPerson db name encoding metadata now).1 other =
        alistFind db other) ∧
    (∀ n2, (getEncodings db n2).length ≤
      (getEncodings (addPerson db name encoding metadata now).1 n2).length) := by
  have hfind : ∃ pd0, alistFind
      (if alistHas db name then db
       else db ++ [(name, ⟨[], alistSet (metadata.getD []) "added_date" now⟩)])
      name = some pd0 ∧ pd0.encodings = getEncodings db name := by
    by_cases h : alistHas db name
    · obtain ⟨pd0, hpd0⟩ := alistFind_of_has h
      exact ⟨pd0, by rw [if_pos h]; exact hpd0, by simp [getEncodings, hpd0]⟩
    · refine ⟨⟨[], alistSet (metadata.getD []) "added_date" now⟩, ?_, ?_⟩
      · rw [if_neg h,
          alistFind_append_none _ (alistFind_eq_none (by simpa using h))]
        simp [alistFind]
      · simp [getEncodings, alistFind_eq_none (by simpa using h : alistHas db name = false)]
  obtain ⟨pd0, hpd0, hpd0enc⟩ := hfind
  have hres : alistFind (addPerson db name encoding metadata now).1 name =
      some ⟨pd0.encodings ++ [encoding], alistSet pd0.metadata "last_updated" now⟩ := by
    simp only [addPerson]
    rw [alistFind_mapAt_self, hpd0]
    rfl
  refine ⟨rfl, ?_, ?_, ?_, ?_⟩
  · simp [getEncodings, hres, hpd0enc]
  · exact ⟨_, hres, alistFind_set_self _ _ _⟩
  · intro other hother
    simp only [addPerson]
    rw [alistFind_mapAt_ne _ _ _ _ hother]
    by_cases h : alistHas db name
    · rw [if_pos h]
    · rw [if_neg h]
      by_cases h2 : alistFind db other = none
      · rw [alistFind_append_none _ h2, h2]
        simp [alistFind, Ne.symm hother]
      · obtain ⟨v, hv⟩ := Option.ne_none_iff_exists'.mp h2
        rw [alistFind_append_some _ hv, hv]
  · intro n2
    by_cases h : n2 = name
    · subst h
      simp [getEncodings, hres, hpd0enc]
    · have : alistFind (addPerson db name encoding metadata now).1 n2 =
          alistFind db n2 := by
        simp only [addPerson]
        rw [alistFind_mapAt_ne _ _ _ _ h]
        by_cases hh : alistHas db name
        · rw [if_pos hh]
        · rw [if_neg hh]
          by_cases h2 : alistFind db n2 = none
          · rw [alistFind_append_none _ h2, h2]
            simp [alistFind, Ne.symm h]
          · obtain ⟨v, hv⟩ := Option.ne_none_iff_exists'.mp h2
            rw [alistFind_append_some _ hv, hv]
      simp [getEncodings, this]

/-- C9 witness: adding to the empty database with a concrete name. -/
theorem add_person_effect_witness :
    (addPerson [] "alice" [1, 2] none "t0").2 = true ∧
    getEncodings (addPerson [] "alice" [1, 2] none "t0").1 "alice" =
      getEncodings ([] : Database) "alice" ++ [[1, 2]] := by
  obtain ⟨h1, h2, _⟩ := add_person_effect [] "alice" [1, 2] none "t0" (by decide)
  exact ⟨h1, h2⟩

/-- C7 counterexample: `save_database` does not follow the
write-temporary-then-rename protocol — its very first file-system
operation writes the durable gallery file directly. -/
theorem save_not_atomic :
    ¬ atomicReplaceSave
        (saveDatabaseOps "data/encodings/face_database.pkl"
          "data/encodings/face_database.json"
          "data/encodings/backups/face_database_20240101_120000.pkl" true)
        "data/encodings/face_database.pkl" := by
  intro h
  exact h.1 (FsOp.write "data/encodings/face_database.pkl")
    (by simp [saveDatabaseOps]) rfl

/-- C7 amended: `save_database` serializes straight into the durable
gallery file (its first operation is a direct write of `db_path`) and
performs no rename at all, so save is not atomic with respect to
concurrent reads. -/
theorem save_writes_in_place :
    ∀ (dbPath metaPath backupPath : String) (backupEnabled : Bool),
      (saveDatabaseOps dbPath metaPath backupPath backupEnabled).head? =
        some (FsOp.write dbPath) ∧
      ∀ src dst, FsOp.rename src dst ∉
        saveDatabaseOps dbPath metaPath backupPath backupEnabled := by
  intro dbPath metaPath backupPath backupEnabled
  constructor
  · rfl
  · intro src dst hmem
    cases backupEnabled <;> simp [saveDatabaseOps] at hmem

/-! ### Vote-key order lemmas -/

lemma keyLe_refl (a : Nat × Rat) : keyLe a a := Or.inr rfl

lemma keyLt_trans {a b c : Nat × Rat} (h1 : keyLt a b) (h2 : keyLt b c) :
    keyLt a c := by
  unfold keyLt at *
  rcases h1 with h1 | ⟨e1, h1⟩ <;> rcases h2 with h2 | ⟨e2, h2⟩
  · exact Or.inl (lt_trans h1 h2)
  · exact Or.inl (e2 ▸ h1)
  · exact Or.inl (e1 ▸ h2)
  · exact Or.inr ⟨e1.trans e2, lt_trans h1 h2⟩

lemma keyLe_trans {a b c : Nat × Rat} (h1 : keyLe a b) (h2 : keyLe b c) :
    keyLe a c := by
  rcases h1 with h1 | rfl
  · rcases h2 with h2 | rfl
    · exact Or.inl (keyLt_trans h1 h2)
    · exact Or.inl h1
  · exact h2

lemma keyLe_of_not_lt {a b : Nat × Rat} (h : ¬ keyLt a b) : keyLe b a := by
  unfold keyLt at h
  push_neg at h
  obtain ⟨h1, h2⟩ := h
  rcases lt_trichotomy b.1 a.1 with hc | hc | hc
  · exact Or.inl (Or.inl hc)
  · rcases lt_trichotomy b.2 a.2 with hr | hr | hr
    · exact Or.inl (Or.inr ⟨hc, hr⟩)
    · exact Or.inr (Prod.ext hc hr)
    · exact absurd hr (not_lt.mpr (h2 hc.symm))
  · exact absurd hc (not_lt.mpr h1)

/-- The Python `max` scan returns the first item of maximal key: the
result is the start value or a list member, its key dominates the start
value's key and every list member's key. -/
lemma voteFold_spec (vs : List (String × List Rat)) : ∀ v : String × List Rat,
    (vs.foldl voteMaxStep v = v ∨ vs.foldl voteMaxStep v ∈ vs) ∧
    keyLe (voteKey v.2) (voteKey (vs.foldl voteMaxStep v).2) ∧
    ∀ p ∈ vs, keyLe (voteKey p.2) (voteKey (vs.foldl voteMaxStep v).2) := by
  induction vs with
  | nil => exact fun v => ⟨Or.inl rfl, keyLe_refl _, by simp⟩
  | cons w ws ih =>
    intro v
    have hstep : (w :: ws).foldl voteMaxStep v = ws.foldl voteMaxStep (voteMaxStep v w) := rfl
    obtain ⟨hmem, hge, hall⟩ := ih (voteMaxStep v w)
    have hvstep : keyLe (voteKey v.2) (voteKey (voteMaxStep v w).2) := by
      unfold voteMaxStep
      split
      · exact Or.inl (by assumption)
      · exact keyLe_refl _
    have hwstep : keyLe (voteKey w.2) (voteKey (voteMaxStep v w).2) := by
      unfold voteMaxStep
      split
      · exact keyLe_refl _
      · exact keyLe_of_not_lt (by assumption)
    refine ⟨?_, ?_, ?_⟩
    · rw [hstep]
      rcases hmem with h | h
      · rw [h]
        unfold voteMaxStep
        split
        · exact Or.inr (List.mem_cons_self _ _)
        · exact Or.inl rfl
      · exact Or.inr (List.mem_cons_of_mem _ h)
    · rw [hstep]
      exact keyLe_trans hvstep hge
    · intro p hp
      rw [hstep]
      rcases List.mem_cons.mp hp with rfl | hp
      · exact keyLe_trans hwstep hge
      · exact hall p hp

/-- C1: for a track whose `name_votes` is non-empty, the stabilized label
computed (and emitted) by `FaceTracker.update` is an item of `name_votes`
whose key `(vote count, mean confidence)` is lexicographically maximal,
and the stabilized confidence is the mean of that item's vote queue.
In particular a track holding 5 votes for "Alice" and 1 vote for "Bob"
is labeled "Alice" regardless of the individual confidences. -/
theorem stabilized_label_resolution :
    (∀ (votes : List (String × List Rat)) (fallbackConf : Rat), votes ≠ [] →
      ∃ nq, pickBest votes = some nq ∧ nq ∈ votes ∧
        (∀ p ∈ votes, keyLe (voteKey p.2) (voteKey nq.2)) ∧
        resolveLabel votes fallbackConf = (nq.1, mean nq.2)) ∧
    (∀ a1 a2 a3 a4 a5 bobConf : Rat,
      ((⟨[(0, ⟨(0, 0, 10, 10), [("Alice", [a1, a2, a3, a4, a5])], 0⟩)], 1, 5,
          1 / 2, 10⟩ : FaceTracker).update
        [⟨(0, 0, 10, 10), "Bob", bobConf, true⟩]).2 =
        [((0, 0, 10, 10), "Alice", mean [a1, a2, a3, a4, a5], true)]) := by
  constructor
  · intro votes fallbackConf hne
    cases votes with
    | nil => exact absurd rfl hne
    | cons v vs =>
      obtain ⟨hmem, _, hall⟩ := voteFold_spec vs v
      refine ⟨vs.foldl voteMaxStep v, rfl, ?_, ?_, ?_⟩
      · rcases hmem with h | h
        · rw [h]; exact List.mem_cons_self _ _
        · exact List.mem_cons_of_mem _ h
      · intro p hp
        rcases List.mem_cons.mp hp with rfl | hp
        · exact (voteFold_spec vs p).2.1
        · exact hall p hp
      · rfl
  · intro a1 a2 a3 a4 a5 bobConf
    norm_num [FaceTracker.update, FaceTracker.updateFull, stepDetection,
      ageTracks, findBestTrack, findStep, calculateIou, addVote, alistHas,
      alistMapAt, pushVote, resolveLabel, pickBest]
    simp only [eq_false (by decide : ¬ ("Bob" = "")),
      eq_false (by decide : ¬ ("Alice" = "Bob")), if_false,
      List.foldl_cons, List.foldl_nil]
    have hk : ¬ keyLt (voteKey [a1, a2, a3, a4, a5]) (voteKey [bobConf]) := by
      simp [keyLt, voteKey]
    simp only [voteMaxStep, if_neg hk]
    exact ⟨trivial, trivial, by decide⟩

/-- C1 witness: a singleton vote table. -/
theorem stabilized_label_resolution_witness :
    ∃ nq, pickBest [("Alice", [(9 : Rat) / 10])] = some nq ∧
      nq ∈ [("Alice", [(9 : Rat) / 10])] ∧
      (∀ p ∈ [("Alice", [(9 : Rat) / 10])], keyLe (voteKey p.2) (voteKey nq.2)) ∧
      resolveLabel [("Alice", [(9 : Rat) / 10])] 0 = (nq.1, mean nq.2) :=
  stabilized_label_resolution.1 [("Alice", [(9 : Rat) / 10])] 0
    (List.cons_ne_nil _ _)

/-! ### Fold invariants of `FaceTracker.update` -/

/-- A result produced by the `findStep` scan is an unclaimed member of the
track table. -/
lemma findStep_foldl_spec (thr : Rat) (bbox : BBox) (matched : List Nat)
    (tracks : List (Nat × Track)) : ∀ acc : Rat × Option (Nat × Track),
    (tracks.foldl (findStep thr bbox matched) acc).2 = acc.2 ∨
    ∃ it, (tracks.foldl (findStep thr bbox matched) acc).2 = some it ∧
      it ∈ tracks ∧ it.1 ∉ matched := by
  induction tracks with
  | nil => exact fun acc => Or.inl rfl
  | cons t ts ih =>
    intro acc
    have hfold : (t :: ts).foldl (findStep thr bbox matched) acc =
        ts.foldl (findStep thr bbox matched) (findStep thr bbox matched acc t) := rfl
    rcases ih (findStep thr bbox matched acc t) with h | ⟨it, h1, h2, h3⟩
    · rw [hfold, h]
      unfold findStep
      by_cases hm : t.1 ∈ matched
      · rw [if_pos hm]
        exact Or.inl rfl
      · rw [if_neg hm]
        dsimp only
        split
        · exact Or.inr ⟨t, rfl, List.mem_cons_self _ _, hm⟩
        · exact Or.inl rfl
    · exact Or.inr ⟨it, by rw [hfold]; exact h1, List.mem_cons_of_mem _ h2, h3⟩

/-- `findBestTrack` only returns unclaimed members of the track table. -/
lemma findBestTrack_mem {thr : Rat} {bbox : BBox} {matched : List Nat}
    {tracks : List (Nat × Track)} {it : Nat × Track}
    (h : findBestTrack thr bbox matched tracks = some it) :
    it ∈ tracks ∧ it.1 ∉ matched := by
  unfold findBestTrack at h
  rcases findStep_foldl_spec thr bbox matched tracks (0, none) with h2 | ⟨it2, h2, h3, h4⟩
  · rw [h] at h2
    exact absurd h2 (by simp)
  · rw [h] at h2
    obtain rfl : it = it2 := by injection h2
    exact ⟨h3, h4⟩

/-- The claimed set only grows along the detection loop. -/
lemma matched_mono (hs : Nat) (thr : Rat) (dets : List Detection) :
    ∀ acc : UpdateAcc, acc.matched ⊆
      (dets.foldl (stepDetection hs thr) acc).matched := by
  induction dets with
  | nil => exact fun acc => List.Subset.refl _
  | cons d ds ih =>
    intro acc
    refine List.Subset.trans ?_ (ih (stepDetection hs thr acc d))
    unfold stepDetection
    cases hfind : findBestTrack thr d.bbox acc.matched acc.tracks with
    | none => exact List.subset_cons_self _ _
    | some p => exact List.subset_cons_self _ _

/-- An entry whose id is already claimed survives the rest of the
detection loop untouched (later detections skip claimed tracks). -/
lemma claimed_entry_preserved (hs : Nat) (thr : Rat) (dets : List Detection) :
    ∀ (acc : UpdateAcc) (p : Nat × Track), p ∈ acc.tracks →
      p.1 ∈ acc.matched →
      p ∈ (dets.foldl (stepDetection hs thr) acc).tracks ∧
        p.1 ∈ (dets.foldl (stepDetection hs thr) acc).matched := by
  induction dets with
  | nil => exact fun acc p hp hm => ⟨hp, hm⟩
  | cons d ds ih =>
    intro acc p hp hm
    apply ih (stepDetection hs thr acc d) p
    · unfold stepDetection
      cases hfind : findBestTrack thr d.bbox acc.matched acc.tracks with
      | none => exact List.mem_append_left _ hp
      | some q =>
          obtain ⟨hq1, hq2⟩ := findBestTrack_mem hfind
          have hne : p.1 ≠ q.1 := fun h => hq2 (h ▸ hm)
          have : (fun it => if it.1 = q.1 then (q.1, ⟨d.bbox,
              if d.name ≠ "" ∧ d.isKnown then addVote hs q.2.nameVotes d.name d.confidence
              else q.2.nameVotes, 0⟩) else it) p = p := by
            simp only [if_neg hne]
          exact this ▸ List.mem_map_of_mem _ hp
    · unfold stepDetection
      cases hfind : findBestTrack thr d.bbox acc.matched acc.tracks with
      | none => exact List.mem_cons_of_mem _ hm
      | some q => exact List.mem_cons_of_mem _ hm

/-- An entry whose id is never claimed during the call is untouched by the
detection loop. -/
lemma unclaimed_entry_preserved (hs : Nat) (thr : Rat) (dets : List Detection) :
    ∀ (acc : UpdateAcc) (p : Nat × Track), p ∈ acc.tracks →
      p.1 ∉ (dets.foldl (stepDetection hs thr) acc).matched →
      p ∈ (dets.foldl (stepDetection hs thr) acc).tracks := by
  induction dets with
  | nil => exact fun acc p hp _ => hp
  | cons d ds ih =>
    intro acc p hp hnm
    apply ih (stepDetection hs thr acc d) p _ hnm
    have hnm1 : p.1 ∉ (stepDetection hs thr acc d).matched := fun h =>
      hnm (matched_mono hs thr ds (stepDetection hs thr acc d) h)
    unfold stepDetection at hnm1 ⊢
    cases hfind : findBestTrack thr d.bbox acc.matched acc.tracks with
    | none => exact List.mem_append_left _ hp
    | some q =>
        rw [hfind] at hnm1
        have hne : p.1 ≠ q.1 := by
          simp only [List.mem_cons] at hnm1
          exact fun h => hnm1 (Or.inl h)
        have : (fun it => if it.1 = q.1 then (q.1, ⟨d.bbox,
            if d.name ≠ "" ∧ d.isKnown then addVote hs q.2.nameVotes d.name d.confidence
            else q.2.nameVotes, 0⟩) else it) p = p := by
          simp only [if_neg hne]
        exact this ▸ List.mem_map_of_mem _ hp

/-- Every id claimed during the call ends the call bound to a track of
age 0 (its claiming detection reset it, later detections skip it). -/
lemma claimed_age_zero (hs : Nat) (thr : Rat) (dets : List Detection) :
    ∀ (acc : UpdateAcc) (tid : Nat),
      tid ∈ (dets.foldl (stepDetection hs thr) acc).matched →
      tid ∉ acc.matched →
      ∃ tr2, (tid, tr2) ∈ (dets.foldl (stepDetection hs thr) acc).tracks ∧
        tr2.age = 0 := by
  induction dets with
  | nil => exact fun acc tid hin hout => absurd hin hout
  | cons d ds ih =>
    intro acc tid hin hout
    by_cases h1 : tid ∈ (stepDetection hs thr acc d).matched
    · -- claimed by this detection: its fresh age-0 entry survives the rest
      have : ∃ tr2, (tid, tr2) ∈ (stepDetection hs thr acc d).tracks ∧
          tr2.age = 0 := by
        unfold stepDetection at h1 ⊢
        cases hfind : findBestTrack thr d.bbox acc.matched acc.tracks with
        | none =>
            rw [hfind] at h1
            simp only [List.mem_cons] at h1
            rcases h1 with rfl | h1
            · refine ⟨_, List.mem_append_right _ (List.mem_singleton_self _), ?_⟩
              rfl
            · exact absurd h1 hout
        | some q =>
            rw [hfind] at h1
            simp only [List.mem_cons] at h1
            rcases h1 with rfl | h1
            · obtain ⟨hq1, _⟩ := findBestTrack_mem hfind
              refine ⟨⟨d.bbox,
                if d.name ≠ "" ∧ d.isKnown then addVote hs q.2.nameVotes d.name d.confidence
                else q.2.nameVotes, 0⟩, ?_, rfl⟩
              have : (fun it => if it.1 = q.1 then (q.1, ⟨d.bbox,
                  if d.name ≠ "" ∧ d.isKnown then addVote hs q.2.nameVotes d.name d.confidence
                  else q.2.nameVotes, 0⟩) else it) q = (q.1, ⟨d.bbox,
                  if d.name ≠ "" ∧ d.isKnown then addVote hs q.2.nameVotes d.name d.confidence
                  else q.2.nameVotes, 0⟩) := by
                simp
              exact this ▸ List.mem_map_of_mem _ hq1
            · exact absurd h1 hout
      obtain ⟨tr2, htr2, hage⟩ := this
      obtain ⟨hfin, _⟩ := claimed_entry_preserved hs thr ds
        (stepDetection hs thr acc d) (tid, tr2) htr2 h1
      exact ⟨tr2, hfin, hage⟩
    · exact ih (stepDetection hs thr acc d) tid hin h1

/-- Track ids present after the loop come from the incoming table or from
the fresh-id counter. -/
lemma tracks_ids_from (hs : Nat) (thr : Rat) (dets : List Detection) :
    ∀ (acc : UpdateAcc) (tid : Nat),
      tid ∈ (dets.foldl (stepDetection hs thr) acc).tracks.map Prod.fst →
      tid ∈ acc.tracks.map Prod.fst ∨ acc.nextId ≤ tid := by
  induction dets with
  | nil => exact fun acc tid h => Or.inl h
  | cons d ds ih =>
    intro acc tid h
    rcases ih (stepDetection hs thr acc d) tid h with h2 | h2
    · unfold stepDetection at h2
      cases hfind : findBestTrack thr d.bbox acc.matched acc.tracks with
      | none =>
          rw [hfind] at h2
          simp only [List.map_append, List.mem_append, List.map_cons,
            List.map_nil, List.mem_cons, List.not_mem_nil, or_false] at h2
          rcases h2 with h2 | h2
          · exact Or.inl h2
          · exact Or.inr (le_of_eq h2.symm)
      | some q =>
          rw [hfind] at h2
          rw [List.map_map] at h2
          -- the mapped entries keep their first component
          have hcong : acc.tracks.map (Prod.fst ∘ (fun it : Nat × Track =>
              if it.1 = q.1 then (q.1, ⟨d.bbox,
                if d.name ≠ "" ∧ d.isKnown then addVote hs q.2.nameVotes d.name d.confidence
                else q.2.nameVotes, 0⟩) else it)) = acc.tracks.map Prod.fst := by
            apply List.map_congr_left
            intro a _
            by_cases ha : a.1 = q.1
            · simp only [Function.comp_apply, if_pos ha]
              exact ha.symm
            · simp only [Function.comp_apply, if_neg ha]
          rw [hcong] at h2
          exact Or.inl h2
    · -- fresh id: the counter only grows
      refine Or.inr (le_trans ?_ h2)
      unfold stepDetection
      cases hfind : findBestTrack thr d.bbox acc.matched acc.tracks with
      | none => exact Nat.le_succ _
      | some q => exact le_refl _

/-- In a table with pairwise-distinct ids (a Python dict), an id
determines its track. -/
lemma nodup_keys_unique {l : List (Nat × Track)} (h : (l.map Prod.fst).Nodup)
    {k : Nat} {a b : Track} (ha : (k, a) ∈ l) (hb : (k, b) ∈ l) : a = b := by
  induction l with
  | nil => cases ha
  | cons p ps ih =>
    simp only [List.map_cons, List.nodup_cons] at h
    rcases List.mem_cons.mp ha with heqa | ha2 <;>
      rcases List.mem_cons.mp hb with heqb | hb2
    · rw [← heqb] at heqa
      injection heqa
    · exfalso
      apply h.1
      have hk : p.1 = k := by rw [← heqa]
      rw [hk]
      exact List.mem_map_of_mem Prod.fst hb2
    · exfalso
      apply h.1
      have hk : p.1 = k := by rw [← heqb]
      rw [hk]
      exact List.mem_map_of_mem Prod.fst ha2
    · exact ih h.2 ha2 hb2

/-- Unfolding membership in the aged track table. -/
lemma mem_ageTracks {m : Nat} {l : List (Nat × Track)} {p : Nat × Track}
    (hp : p ∈ ageTracks m l) :
    ∃ q ∈ l, p = (q.1, { q.2 with age := q.2.age + 1 }) ∧ q.2.age + 1 ≤ m := by
  unfold ageTracks at hp
  obtain ⟨hmem, hcond⟩ := List.mem_filter.mp hp
  obtain ⟨q, hq, rfl⟩ := List.mem_map.mp hmem
  exact ⟨q, hq, rfl, by simpa using hcond⟩

/-- A young-enough entry survives the aging step with age incremented. -/
lemma ageTracks_mem {m : Nat} {l : List (Nat × Track)} {q : Nat × Track}
    (hq : q ∈ l) (hle : q.2.age + 1 ≤ m) :
    (q.1, { q.2 with age := q.2.age + 1 }) ∈ ageTracks m l := by
  unfold ageTracks
  exact List.mem_filter.mpr ⟨List.mem_map_of_mem _ hq, by simpa using hle⟩

/-- Loop invariant: every stored id and every claimed id is below the
fresh-id counter, and no id is claimed twice. -/
def accInv (acc : UpdateAcc) : Prop :=
  (∀ p ∈ acc.tracks, p.1 < acc.nextId) ∧ (∀ m ∈ acc.matched, m < acc.nextId) ∧
    acc.matched.Nodup

lemma accInv_foldl (hs : Nat) (thr : Rat) (dets : List Detection) :
    ∀ acc : UpdateAcc, accInv acc →
      accInv (dets.foldl (stepDetection hs thr) acc) := by
  induction dets with
  | nil => exact fun acc h => h
  | cons d ds ih =>
    intro acc h
    apply ih
    obtain ⟨h1, h2, h3⟩ := h
    unfold stepDetection
    cases hfind : findBestTrack thr d.bbox acc.matched acc.tracks with
    | none =>
        refine ⟨?_, ?_, ?_⟩
        · intro p hp
          rcases List.mem_append.mp hp with hp | hp
          · exact lt_trans (h1 p hp) (Nat.lt_succ_self _)
          · simp only [List.mem_cons, List.not_mem_nil, or_false] at hp
            rw [hp]
            exact Nat.lt_succ_self _
        · intro m hm
          rcases List.mem_cons.mp hm with rfl | hm
          · exact Nat.lt_succ_self _
          · exact lt_trans (h2 m hm) (Nat.lt_succ_self _)
        · exact List.Nodup.cons (fun hm => lt_irrefl _ (h2 _ hm)) h3
    | some q =>
        obtain ⟨hq1, hq2⟩ := findBestTrack_mem hfind
        refine ⟨?_, ?_, ?_⟩
        · intro p hp
          obtain ⟨r, hr, rfl⟩ := List.mem_map.mp hp
          have : ((fun it : Nat × Track => if it.1 = q.1 then (q.1, ⟨d.bbox,
              if d.name ≠ "" ∧ d.isKnown then addVote hs q.2.nameVotes d.name d.confidence
              else q.2.nameVotes, 0⟩) else it) r).1 = r.1 := by
            by_cases hrq : r.1 = q.1
            · simp only [if_pos hrq]
              exact hrq.symm
            · simp only [if_neg hrq]
          rw [this]
          exact h1 r hr
        · intro m hm
          rcases List.mem_cons.mp hm with rfl | hm
          · exact h1 q hq1
          · exact h2 m hm
        · exact List.Nodup.cons hq2 h3

/-- The detection loop appends exactly one result per detection, carrying
that detection's bounding box. -/
lemma results_shape (hs : Nat) (thr : Rat) (dets : List Detection) :
    ∀ acc : UpdateAcc,
      (dets.foldl (stepDetection hs thr) acc).results.map (fun r => r.1) =
        acc.results.map (fun r => r.1) ++ dets.map (fun d => d.bbox) ∧
      (dets.foldl (stepDetection hs thr) acc).results.length =
        acc.results.length + dets.length := by
  induction dets with
  | nil => exact fun acc => ⟨by simp, by simp⟩
  | cons d ds ih =>
    intro acc
    have hstep : (stepDetection hs thr acc d).results.map (fun r => r.1) =
        acc.results.map (fun r => r.1) ++ [d.bbox] ∧
        (stepDetection hs thr acc d).results.length = acc.results.length + 1 := by
      unfold stepDetection
      cases hfind : findBestTrack thr d.bbox acc.matched acc.tracks with
      | none => simp
      | some q => simp
    obtain ⟨ih1, ih2⟩ := ih (stepDetection hs thr acc d)
    constructor
    · rw [List.foldl_cons, ih1, hstep.1]
      simp
    · rw [List.foldl_cons, ih2, hstep.2]
      simp only [List.length_cons]
      omega

/-- C3: `max_age` is 10; a track whose incremented age exceeds `max_age`
is removed by the update call (and only then); a track not claimed by any
detection of the call survives with age exactly incremented by 1; a track
claimed during the call ends it with age 0; and a track unmatched for 11
consecutive update calls is gone after the 11th call while still present
after the 10th. -/
theorem track_age_eviction :
    (∀ (hs : Nat) (thr : Rat), (FaceTracker.mk0 hs thr).maxAge = 10) ∧
    (∀ (ft : FaceTracker) (dets : List Detection) (tid : Nat) (tr : Track),
      ft.WF → (tid, tr) ∈ ft.tracks → ft.maxAge < tr.age + 1 →
      tid ∉ ((ft.update dets).1.tracks.map Prod.fst)) ∧
    (∀ (ft : FaceTracker) (dets : List Detection) (tid : Nat) (tr : Track),
      (tid, tr) ∈ ft.tracks → tr.age + 1 ≤ ft.maxAge →
      tid ∉ (ft.updateFull dets).matched →
      (tid, { tr with age := tr.age + 1 }) ∈ (ft.update dets).1.tracks) ∧
    (∀ (ft : FaceTracker) (dets : List Detection) (tid : Nat),
      tid ∈ (ft.updateFull dets).matched →
      ∃ tr2, (tid, tr2) ∈ (ft.update dets).1.tracks ∧ tr2.age = 0) ∧
    ((Nat.iterate (fun s : FaceTracker => (s.update []).1) 10
        ⟨[(0, ⟨(0, 0, 10, 10), [], 0⟩)], 1, 5, 1 / 2, 10⟩).tracks ≠ [] ∧
      (Nat.iterate (fun s : FaceTracker => (s.update []).1) 11
        ⟨[(0, ⟨(0, 0, 10, 10), [], 0⟩)], 1, 5, 1 / 2, 10⟩).tracks = []) := by
  refine ⟨fun _ _ => rfl, ?_, ?_, ?_, ?_, ?_⟩
  · intro ft dets tid tr hwf hmem hage hin
    have hin2 : tid ∈ (ft.updateFull dets).tracks.map Prod.fst := hin
    rcases tracks_ids_from ft.historySize ft.iouThreshold dets
      { tracks := ageTracks ft.maxAge ft.tracks, nextId := ft.nextId,
        matched := [], results := [] } tid hin2 with h | h
    · obtain ⟨p, hp, hpfst⟩ := List.mem_map.mp h
      obtain ⟨q, hq, hpq, hqage⟩ := mem_ageTracks hp
      have hq1 : q.1 = tid := by
        rw [hpq] at hpfst
        exact hpfst
      have hqmem : (tid, q.2) ∈ ft.tracks := by
        rw [← hq1]
        exact hq
      have heq := nodup_keys_unique hwf.2 hqmem hmem
      rw [heq] at hqage
      omega
    · exact absurd h (not_le.mpr (hwf.1 (tid, tr) hmem))
  · intro ft dets tid tr hmem hle hnm
    exact unclaimed_entry_preserved ft.historySize ft.iouThreshold dets
      { tracks := ageTracks ft.maxAge ft.tracks, nextId := ft.nextId,
        matched := [], results := [] }
      (tid, { tr with age := tr.age + 1 }) (ageTracks_mem hmem hle) hnm
  · intro ft dets tid hmat
    exact claimed_age_zero ft.historySize ft.iouThreshold dets
      { tracks := ageTracks ft.maxAge ft.tracks, nextId := ft.nextId,
        matched := [], results := [] } tid hmat (List.not_mem_nil tid)
  · decide
  · decide

/-- C3 witness: a lone track of age 10 is evicted by the next call; a lone
track of age 0 unmatched by an empty detection list survives with age 1;
and an id claimed during a call ends it at age 0. -/
theorem track_age_eviction_witness :
    (0 : Nat) ∉ (((⟨[(0, ⟨(0, 0, 10, 10), [], 10⟩)], 1, 5, 1 / 2, 10⟩ :
        FaceTracker).update []).1.tracks.map Prod.fst) ∧
    (0, (⟨(0, 0, 10, 10), [], 1⟩ : Track)) ∈
      ((⟨[(0, ⟨(0, 0, 10, 10), [], 0⟩)], 1, 5, 1 / 2, 10⟩ :
        FaceTracker).update []).1.tracks := by
  constructor
  · exact track_age_eviction.2.1 _ [] 0 ⟨(0, 0, 10, 10), [], 10⟩
      (by constructor <;> decide) (by decide) (by decide)
  · exact track_age_eviction.2.2.1 _ [] 0 ⟨(0, 0, 10, 10), [], 0⟩
      (by decide) (by decide) (by decide)

/-- C10: `update` returns exactly one result tuple per detection, in input
order and carrying the detection's bounding box, and no track is claimed
by two detections of the same call (the claimed-id list has no
duplicates). -/
theorem update_results_shape (ft : FaceTracker) (dets : List Detection)
    (hwf : ft.WF) :
    ((ft.update dets).2).length = dets.length ∧
    ((ft.update dets).2).map (fun r => r.1) = dets.map (fun d => d.bbox) ∧
    (ft.updateFull dets).matched.Nodup := by
  obtain ⟨hmap, hlen⟩ := results_shape ft.historySize ft.iouThreshold dets
    { tracks := ageTracks ft.maxAge ft.tracks, nextId := ft.nextId,
      matched := [], results := [] }
  have hinv := accInv_foldl ft.historySize ft.iouThreshold dets
    { tracks := ageTracks ft.maxAge ft.tracks, nextId := ft.nextId,
      matched := [], results := [] }
    ⟨?_, by simp, by simp⟩
  · exact ⟨by simpa using hlen, by simpa using hmap, hinv.2.2⟩
  · intro p hp
    obtain ⟨q, hq, hpq, _⟩ := mem_ageTracks hp
    rw [hpq]
    exact hwf.1 q hq

/-- C10 witness: a single-detection call on a fresh tracker. -/
theorem update_results_shape_witness :
    (((FaceTracker.mk0 5 (1 / 2)).update
        [⟨(0, 0, 10, 10), "Unknown", 1, false⟩]).2).length =
      [(⟨(0, 0, 10, 10), "Unknown", 1, false⟩ : Detection)].length ∧
    (((FaceTracker.mk0 5 (1 / 2)).update
        [⟨(0, 0, 10, 10), "Unknown", 1, false⟩]).2).map (fun r => r.1) =
      [(⟨(0, 0, 10, 10), "Unknown", 1, false⟩ : Detection)].map
        (fun d => d.bbox) ∧
    ((FaceTracker.mk0 5 (1 / 2)).updateFull
        [⟨(0, 0, 10, 10), "Unknown", 1, false⟩]).matched.Nodup :=
  update_results_shape (FaceTracker.mk0 5 (1 / 2))
    [⟨(0, 0, 10, 10), "Unknown", 1, false⟩] (by constructor <;> decide)

/-! ### The emission contract of C4 -/

/-- Well-formed detection tuples, as actually produced by the callers in
`main.py` (`process_image` / `process_video`): a recognized face carries a
non-empty gallery name (never the sentinel) with `is_known = True`, and an
unrecognized one carries the sentinel name "Unknown" with
`is_known = False`. -/
def detWF (d : Detection) : Prop :=
  (d.isKnown = true ∧ d.name ≠ "" ∧ d.name ≠ "Unknown") ∨
    (d.isKnown = false ∧ d.name = "Unknown")

instance (d : Detection) : Decidable (detWF d) := by
  unfold detWF; infer_instance

/-- The emission the claim describes for a claimed/created track: the
stabilized label resolution over the track's vote table, the detection
standing in when the table is empty, with
`is_known = (stabilized_name ≠ "Unknown")`. -/
def specEmission (d : Detection) (votes : List (String × List Rat)) :
    TrackResult :=
  match pickBest votes with
  | some nq => (d.bbox, nq.1, mean nq.2, decide (nq.1 ≠ "Unknown"))
  | none => (d.bbox, d.name, d.confidence, decide (d.name ≠ "Unknown"))

lemma addVote_ne_nil (hs : Nat) (votes : List (String × List Rat))
    (name : String) (c : Rat) : addVote hs votes name c ≠ [] := by
  unfold addVote
  split
  · cases votes with
    | nil => simp [alistHas] at *
    | cons v vs => simp [alistMapAt]
  · simp

lemma pickBest_eq_none {votes : List (String × List Rat)}
    (h : pickBest votes = none) : votes = [] := by
  cases votes with
  | nil => rfl
  | cons v vs => exact absurd h (by simp [pickBest])

/-- Each detection's appended result is the claim's emission for the
claimed (or created) track's updated vote table, provided the detection is
well-formed and the vote queues hold at least one element. -/
lemma step_emission (hs : Nat) (thr : Rat) (acc : UpdateAcc) (d : Detection)
    (hd : detWF d) (hhs : 1 ≤ hs) :
    ∃ tid tr, (tid, tr) ∈ (stepDetection hs thr acc d).tracks ∧
      tid ∈ (stepDetection hs thr acc d).matched ∧
      (stepDetection hs thr acc d).results =
        acc.results ++ [specEmission d tr.nameVotes] ∧
      tr.bbox = d.bbox := by
  unfold stepDetection
  cases hfind : findBestTrack thr d.bbox acc.matched acc.tracks with
  | some q =>
      obtain ⟨hq1, _⟩ := findBestTrack_mem hfind
      refine ⟨q.1, ⟨d.bbox,
        if d.name ≠ "" ∧ d.isKnown then addVote hs q.2.nameVotes d.name d.confidence
        else q.2.nameVotes, 0⟩, ?_, List.mem_cons_self _ _, ?_, rfl⟩
      · have : (fun it : Nat × Track => if it.1 = q.1 then (q.1, ⟨d.bbox,
            if d.name ≠ "" ∧ d.isKnown then addVote hs q.2.nameVotes d.name d.confidence
            else q.2.nameVotes, 0⟩) else it) q = (q.1, ⟨d.bbox,
            if d.name ≠ "" ∧ d.isKnown then addVote hs q.2.nameVotes d.name d.confidence
            else q.2.nameVotes, 0⟩) := by
          simp
        exact this ▸ List.mem_map_of_mem _ hq1
      · cases hpick : pickBest (if d.name ≠ "" ∧ d.isKnown then
            addVote hs q.2.nameVotes d.name d.confidence else q.2.nameVotes) with
        | some nq => simp [specEmission, resolveLabel, hpick]
        | none =>
            have hnil := pickBest_eq_none hpick
            have hcond : ¬ (d.name ≠ "" ∧ d.isKnown = true) := by
              intro hc
              rw [if_pos hc] at hnil
              exact addVote_ne_nil hs q.2.nameVotes d.name d.confidence hnil
            rcases hd with ⟨hk, hn1, _⟩ | ⟨hk, hn⟩
            · exact absurd ⟨hn1, hk⟩ hcond
            · have hq2nil : q.2.nameVotes = [] := by rwa [if_neg hcond] at hnil
              simp [specEmission, resolveLabel, pickBest, hn, hk, hq2nil]
  | none =>
      refine ⟨acc.nextId, ⟨d.bbox,
        if d.name ≠ "" ∧ d.isKnown then [(d.name, pushVote hs [] d.confidence)]
        else [], 0⟩,
        List.mem_append_right _ (List.mem_singleton_self _),
        List.mem_cons_self _ _, ?_, rfl⟩
      by_cases hc : d.name ≠ "" ∧ d.isKnown = true
      · rw [if_pos hc]
        have hpush : pushVote hs [] d.confidence = [d.confidence] := by
          simp [pushVote, Nat.sub_eq_zero_of_le hhs]
        rw [hpush]
        rcases hd with ⟨hk, _, hn2⟩ | ⟨hk, _⟩
        · simp [specEmission, pickBest, mean, hk, hn2]
        · rw [hk] at hc
          simp at hc
      · rw [if_neg hc]
        rcases hd with ⟨hk, hn1, _⟩ | ⟨hk, hn⟩
        · exact absurd ⟨hn1, hk⟩ hc
        · simp [specEmission, pickBest, hn, hk]

/-- Placeholder used only as the out-of-range default of `List.getD`. -/
def defaultResult : TrackResult := ((0, 0, 0, 0), "", 0, false)

/-- Placeholder used only as the out-of-range default of `List.getD`. -/
def defaultDetection : Detection := ⟨(0, 0, 0, 0), "", 0, false⟩

/-- Emission contract of the whole detection loop over well-formed
detections: one result per detection, each equal to the claim's emission
for the claimed/created track's final vote table. -/
lemma results_emission (hs : Nat) (thr : Rat) (hhs : 1 ≤ hs)
    (dets : List Detection) :
    ∀ acc : UpdateAcc, (∀ d ∈ dets, detWF d) →
      ∃ rs, (dets.foldl (stepDetection hs thr) acc).results =
          acc.results ++ rs ∧
        rs.length = dets.length ∧
        ∀ i, i < dets.length →
          ∃ tid tr,
            (tid, tr) ∈ (dets.foldl (stepDetection hs thr) acc).tracks ∧
            rs.getD i defaultResult =
              specEmission (dets.getD i defaultDetection) tr.nameVotes ∧
            tr.bbox = (dets.getD i defaultDetection).bbox := by
  induction dets with
  | nil =>
      exact fun acc _ => ⟨[], by simp, rfl, fun i hi => absurd hi (by simp)⟩
  | cons d ds ih =>
      intro acc hwf
      obtain ⟨tid0, tr0, htr0, hm0, hres0, hbb0⟩ :=
        step_emission hs thr acc d (hwf d (List.mem_cons_self _ _)) hhs
      obtain ⟨rs, hrs1, hrs2, hrs3⟩ := ih (stepDetection hs thr acc d)
        (fun d2 h2 => hwf d2 (List.mem_cons_of_mem _ h2))
      refine ⟨specEmission d tr0.nameVotes :: rs, ?_, by simp [hrs2], ?_⟩
      · rw [List.foldl_cons, hrs1, hres0]
        simp
      · intro i hi
        cases i with
        | zero =>
            obtain ⟨hfin, _⟩ := claimed_entry_preserved hs thr ds
              (stepDetection hs thr acc d) (tid0, tr0) htr0 hm0
            exact ⟨tid0, tr0, by rw [List.foldl_cons]; exact hfin, by simp,
              by simpa using hbb0⟩
        | succ i =>
            obtain ⟨tid, tr, h1, h2, h3⟩ := hrs3 i (by simpa using hi)
            exact ⟨tid, tr, by rw [List.foldl_cons]; exact h1,
              by simpa using h2, by simpa using h3⟩

/-- C4 counterexample: a detection carrying a name with `is_known = False`
creates a track with empty `name_votes`, yet `update` emits the raw input
tuple `(bbox, "Bob", 1, False)` — while the claimed stabilized emission
for that track is `(bbox, "Bob", 1, True)` (with `is_known =
(name ≠ "Unknown")`).  The claim therefore fails for newly created
tracks. -/
theorem new_track_emits_raw_tuple :
    ((FaceTracker.mk0 5 (1 / 2)).update
        [⟨(0, 0, 10, 10), "Bob", 1, false⟩]).2 =
      [((0, 0, 10, 10), "Bob", 1, false)] ∧
    ((FaceTracker.mk0 5 (1 / 2)).update
        [⟨(0, 0, 10, 10), "Bob", 1, false⟩]).1.tracks =
      [(0, ⟨(0, 0, 10, 10), [], 0⟩)] ∧
    specEmission ⟨(0, 0, 10, 10), "Bob", 1, false⟩ [] =
      ((0, 0, 10, 10), "Bob", 1, true) ∧
    (((0, 0, 10, 10), "Bob", (1 : Rat), false) : TrackResult) ≠
      ((0, 0, 10, 10), "Bob", 1, true) := by
  refine ⟨?_, ?_, ?_, ?_⟩ <;> decide

/-- C4 amended: over well-formed detections (`is_known` consistent with
the name, as the callers in `main.py` guarantee) and a positive history
size, every tuple emitted by `update` is the stabilized emission — with
`is_known = (stabilized_name ≠ "Unknown")` — of its detection and the
claimed/created track's updated vote table; for ill-formed detections,
newly created tracks instead emit the raw input tuple. -/
theorem emission_spec_wellformed (ft : FaceTracker) (dets : List Detection)
    (hwf : ∀ d ∈ dets, detWF d) (hhs : 1 ≤ ft.historySize) :
    ((ft.update dets).2).length = dets.length ∧
    ∀ i, i < dets.length →
      ∃ tid tr, (tid, tr) ∈ (ft.update dets).1.tracks ∧
        ((ft.update dets).2).getD i defaultResult =
          specEmission (dets.getD i defaultDetection) tr.nameVotes ∧
        tr.bbox = (dets.getD i defaultDetection).bbox := by
  obtain ⟨rs, h1, h2, h3⟩ := results_emission ft.historySize ft.iouThreshold
    hhs dets
    { tracks := ageTracks ft.maxAge ft.tracks, nextId := ft.nextId,
      matched := [], results := [] } hwf
  have hres : (ft.update dets).2 = rs := by simpa using h1
  rw [hres]
  exact ⟨h2, h3⟩

/-- C4 witness: a recognized detection on a fresh tracker. -/
theorem emission_spec_wellformed_witness :
    (((FaceTracker.mk0 5 (1 / 2)).update
        [⟨(0, 0, 10, 10), "Alice", 1, true⟩]).2).length =
      [(⟨(0, 0, 10, 10), "Alice", 1, true⟩ : Detection)].length ∧
    ∀ i, i < [(⟨(0, 0, 10, 10), "Alice", 1, true⟩ : Detection)].length →
      ∃ tid tr, (tid, tr) ∈ ((FaceTracker.mk0 5 (1 / 2)).update
          [⟨(0, 0, 10, 10), "Alice", 1, true⟩]).1.tracks ∧
        (((FaceTracker.mk0 5 (1 / 2)).update
            [⟨(0, 0, 10, 10), "Alice", 1, true⟩]).2).getD i defaultResult =
          specEmission ([(⟨(0, 0, 10, 10), "Alice", 1, true⟩ :
            Detection)].getD i defaultDetection) tr.nameVotes ∧
        tr.bbox = ([(⟨(0, 0, 10, 10), "Alice", 1, true⟩ :
          Detection)].getD i defaultDetection).bbox :=
  emission_spec_wellformed (FaceTracker.mk0 5 (1 / 2))
    [⟨(0, 0, 10, 10), "Alice", 1, true⟩] (by decide) (by decide)

end FaceRec
